import Mathlib

/-!
Verification of the reproducer file collector (LLVM `FileCollector`).

The repository ships only the unit test `llvm/unittests/Support/FileCollectorTest.cpp`;
the implementation (`llvm/lib/Support/FileCollector.cpp` and its header) is not part
of the sources at hand, so the collector itself is modelled from the specification:
path canonicalization with a memoized symlink cache, literal-path deduplication,
rerooting under a fixed root, the ordered virtual-to-destination mapping table, and
the copy loop with a stop-on-error policy.

Absolute paths are modelled as lists of components: `/a/b/c` is `["a", "b", "c"]`.
Concatenating `Root ++ realPath` is exactly the spec's "Root + realPath with the
leading path separator collapsed".
-/

/-- An absolute path, as its list of components (`/a/b/c` is `["a", "b", "c"]`). -/
abbrev FPath := List String

/-- Modelled from the spec: the filesystem interface the collector consumes
(`isSymlink`/`readSymlinkTarget`, and the file contents backing `copyFile`);
the real implementation in `llvm/lib/Support/FileCollector.cpp` is not in the
sources, so the OS surface is an abstract snapshot.  `symlink p` is `some t`
when `p` is a symbolic link with (absolute) target `t`; `contents p` is the
content of the regular file at `p`, `none` when no such file exists. -/
structure FS where
  symlink : FPath → Option FPath
  contents : FPath → Option String

/-- Lexical normalization worker: eliminates `.` components and lets `..`
drop the previously accumulated component. -/
def normAux : FPath → List String → FPath
  | acc, [] => acc
  | acc, c :: rest =>
    if c = "." then normAux acc rest
    else if c = ".." then normAux acc.dropLast rest
    else normAux (acc ++ [c]) rest

/-- Modelled from the spec: "`.` and `..` components are eliminated by normal
lexical normalization before filesystem resolution proceeds". -/
def normalizePath (p : FPath) : FPath := normAux [] p

/-- Look a directory up in the symlink cache (an association list from
directory path to previously-resolved real directory path). -/
def lookupCache (cache : List (FPath × FPath)) (p : FPath) : Option FPath :=
  (cache.find? (fun e => e.1 == p)).map (fun e => e.2)

/-- Modelled from the spec: one sweep of the PathCanonicalizer over the
remaining components, root to leaf.  `resolved` is the real form of the part
already processed; for each further component the candidate prefix is looked
up in the cache (a hit reuses the resolved prefix), otherwise the filesystem
is queried: a symbolic link is resolved through `rec` (the recursive
canonicalization of its target, with one unit of link fuel consumed by the
caller) and cached, and a non-link (including a prefix that does not exist on
disk) is resolved to itself unchanged and cached as such. -/
def canonGo (fs : FS) (rec : List (FPath × FPath) → FPath → FPath × List (FPath × FPath)) :
    List (FPath × FPath) → FPath → List String → FPath × List (FPath × FPath)
  | cache, resolved, [] => (resolved, cache)
  | cache, resolved, c :: rest =>
    let cand := resolved ++ [c]
    match lookupCache cache cand with
    | some r => canonGo fs rec cache r rest
    | none =>
      match fs.symlink cand with
      | some tgt =>
        let res := rec cache (normalizePath tgt)
        canonGo fs rec ((cand, res.1) :: res.2) res.1 rest
      | none => canonGo fs rec ((cand, cand) :: cache) cand rest

/-- Modelled from the spec: the PathCanonicalizer, with a fuel bound on the
depth of nested symbolic-link resolution (symlink chains deeper than the fuel
degrade gracefully to "treat as already real", matching the spec's rule that
resolution failures never abort collection). -/
def canonFix (fs : FS) : Nat → List (FPath × FPath) → FPath → FPath × List (FPath × FPath)
  | 0, cache, p => (p, cache)
  | Nat.succ fuel, cache, p => canonGo fs (canonFix fs fuel) cache [] p

/-- Maximum depth of nested symlink resolution (mirrors the OS symlink-loop
bound). -/
def linkFuel : Nat := 64

/-- Modelled from the spec: canonicalize a directory path to its fully
symlink-resolved, `.`/`..`-normalized real form, threading the symlink cache. -/
def canonicalizeDir (fs : FS) (cache : List (FPath × FPath)) (dir : FPath) :
    FPath × List (FPath × FPath) :=
  canonFix fs linkFuel cache (normalizePath dir)

/-- Modelled from the spec: the collector state — the fixed root, the seen set
of literal paths, the symlink cache, the copy entries (sourceRealPath,
destinationPath) and the ordered mapping table (virtualPath,
destinationPath).  The C++ class lives in `llvm/Support/FileCollector.h`,
which is not among the sources. -/
structure FileCollector where
  Root : FPath
  Seen : List FPath
  SymlinkMap : List (FPath × FPath)
  CopyEntries : List (FPath × FPath)
  VFSMappings : List (FPath × FPath)
deriving DecidableEq

/-- Modelled from the spec: all four structures are created empty at collector
construction. -/
def FileCollector.create (root : FPath) : FileCollector :=
  ⟨root, [], [], [], []⟩

/-- Modelled from the spec: `addFile` — return immediately when the literal
path was already seen; otherwise mark it seen, split off the final filename
component, canonicalize the directory, reroot under `Root`, record a copy
entry unless the real path is already registered, and record a mapping entry
unconditionally. -/
def FileCollector.addFile (fs : FS) (fc : FileCollector) (p : FPath) : FileCollector :=
  if p ∈ fc.Seen then fc
  else
    let dir := p.dropLast
    let filename := p.drop (p.length - 1)
    let res := canonicalizeDir fs fc.SymlinkMap dir
    let realPath := res.1 ++ filename
    let dest := fc.Root ++ realPath
    { fc with
      Seen := p :: fc.Seen
      SymlinkMap := res.2
      CopyEntries :=
        if fc.CopyEntries.any (fun e => e.1 == realPath) then fc.CopyEntries
        else fc.CopyEntries ++ [(realPath, dest)]
      VFSMappings := fc.VFSMappings ++ [(p, dest)] }

/-- The destination directory tree, as an association list from destination
path to file content; the head of the list is the most recent write. -/
abbrev Disk := List (FPath × String)

/-- Read the current content at path `p` on the disk. -/
def readDisk (d : Disk) (p : FPath) : Option String :=
  (d.find? (fun e => e.1 == p)).map (fun e => e.2)

/-- Outcome of a `copyFiles` run: the aggregate success flag, the entries that
were processed, the entries whose copy succeeded, and the resulting disk. -/
structure CopyOutcome where
  success : Bool
  attempted : List (FPath × FPath)
  copied : List (FPath × FPath)
  disk : Disk
deriving DecidableEq

/-- Modelled from the spec: the Copier loop over the registered copy entries.
A source that exists is copied (overwriting any content already at the
destination); a missing source aborts with failure when `stopOnError` is
true and is recorded and skipped when it is false, the overall call then
still returning success once processing completed. -/
def copyEntriesGo (fs : FS) (stopOnError : Bool) :
    List (FPath × FPath) → Disk → CopyOutcome
  | [], d => ⟨true, [], [], d⟩
  | e :: rest, d =>
    match fs.contents e.1 with
    | some content =>
      let r := copyEntriesGo fs stopOnError rest ((e.2, content) :: d)
      ⟨r.success, e :: r.attempted, e :: r.copied, r.disk⟩
    | none =>
      if stopOnError then ⟨false, [e], [], d⟩
      else
        let r := copyEntriesGo fs stopOnError rest d
        ⟨r.success, e :: r.attempted, r.copied, r.disk⟩

/-- Modelled from the spec: `copyFiles(stopOnError)` drains the copy entries
and performs the filesystem copies; the collector's in-memory tables are read,
not mutated, during the copy phase, so the collector component of the result
is the input collector. -/
def FileCollector.copyFiles (fs : FS) (fc : FileCollector) (stopOnError : Bool)
    (d : Disk) : FileCollector × CopyOutcome :=
  (fc, copyEntriesGo fs stopOnError fc.CopyEntries d)

/-- A filesystem snapshot with a single symbolic link `/r/bar -> /r/foo`
(the directory `/r/foo` holding the regular file `ddd`, whose content is
irrelevant to path resolution). -/
def fsLink : FS :=
  ⟨fun q => if q = ["r", "bar"] then some ["r", "foo"] else none, fun _ => none⟩

/-- A filesystem snapshot with no symbolic links at all. -/
def fsNoSym : FS := ⟨fun _ => none, fun _ => none⟩

/-- `addFile` never changes the root. -/
theorem addFile_Root (fs : FS) (fc : FileCollector) (p : FPath) :
    (fc.addFile fs p).Root = fc.Root := by
  unfold FileCollector.addFile
  split <;> rfl

/-- After `addFile p`, the literal path `p` is in the seen set. -/
theorem mem_seen_addFile (fs : FS) (fc : FileCollector) (p : FPath) :
    p ∈ (fc.addFile fs p).Seen := by
  unfold FileCollector.addFile
  split
  · assumption
  · exact List.mem_cons_self _ _

/-- `addFile` on an already-seen literal path returns the state unchanged. -/
theorem addFile_of_seen (fs : FS) (fc : FileCollector) (p : FPath)
    (h : p ∈ fc.Seen) : fc.addFile fs p = fc := by
  unfold FileCollector.addFile
  simp [h]

/-- `addFile` at a fixed literal path is idempotent. -/
theorem addFile_addFile (fs : FS) (fc : FileCollector) (p : FPath) :
    (fc.addFile fs p).addFile fs p = fc.addFile fs p :=
  addFile_of_seen fs _ p (mem_seen_addFile fs fc p)

/-- Iterating `addFile p` any positive number of times equals a single call. -/
theorem addFile_iterate (fs : FS) (p : FPath) (n : Nat) :
    ∀ fc : FileCollector,
      (fun s : FileCollector => s.addFile fs p)^[n + 1] fc = fc.addFile fs p := by
  induction n with
  | zero => intro fc; rfl
  | succ n ih =>
      intro fc
      rw [Function.iterate_succ_apply, ih, addFile_addFile]

/-- C3: `addFile` is idempotent on literal paths — calling it `n + 1` times
with the identical path leaves the collector exactly as one call does (the
seen set, copy entries, mapping table and cache all unchanged by repeats),
and from a fresh collector exactly one mapping entry and at most one copy
entry for `p` exist regardless of how many times `addFile p` ran. -/
theorem addFile_idempotent (fs : FS) (p : FPath) (fc : FileCollector) (n : Nat)
    (R : FPath) :
    (fun s : FileCollector => s.addFile fs p)^[n + 1] fc = fc.addFile fs p
    ∧ ((((fun s : FileCollector => s.addFile fs p)^[n + 1]
          (FileCollector.create R)).VFSMappings.filter
        (fun e => e.1 == p)).length = 1)
    ∧ (((fun s : FileCollector => s.addFile fs p)^[n + 1]
          (FileCollector.create R)).CopyEntries.length ≤ 1) := by
  refine ⟨addFile_iterate fs p n fc, ?_, ?_⟩
  · rw [addFile_iterate]
    unfold FileCollector.addFile
    simp [FileCollector.create]
  · rw [addFile_iterate]
    unfold FileCollector.addFile
    simp [FileCollector.create]

/-- C6: deduplication is by literal path identity only — after `addFile p`
the path `p` is seen, while any distinct literal path `q` is seen afterwards
exactly when it was seen before. -/
theorem seen_literal_identity (fs : FS) (fc : FileCollector) (p q : FPath)
    (h : q ≠ p) :
    p ∈ (fc.addFile fs p).Seen
    ∧ ((q ∈ (fc.addFile fs p).Seen) ↔ q ∈ fc.Seen) := by
  refine ⟨mem_seen_addFile fs fc p, ?_⟩
  unfold FileCollector.addFile
  split
  · exact Iff.rfl
  · simp [List.mem_cons, h]

/-- Witness for C6 at concrete inputs: adding `/a/x` marks `/a/x` seen and
leaves `/a/y` unseen. -/
theorem seen_literal_identity_witness :
    ["a", "x"] ∈ ((FileCollector.create ["R"]).addFile fsNoSym ["a", "x"]).Seen
    ∧ ["a", "y"] ∉ ((FileCollector.create ["R"]).addFile fsNoSym ["a", "x"]).Seen := by
  have h := seen_literal_identity fsNoSym (FileCollector.create ["R"])
    ["a", "x"] ["a", "y"] (by decide)
  exact ⟨h.1, fun hm => absurd (h.2.mp hm) (by decide)⟩

/-- The root of a collector is unchanged by any sequence of `addFile` calls. -/
theorem foldl_addFile_Root (fs : FS) (ops : List FPath) :
    ∀ init : FileCollector,
      (ops.foldl (fun s q => s.addFile fs q) init).Root = init.Root := by
  induction ops with
  | nil => intro init; rfl
  | cons a t ih =>
      intro init
      rw [List.foldl_cons, ih, addFile_Root]

/-- C9: the root is fixed at construction and never mutated — after any
sequence of `addFile` calls and a `copyFiles` call, the collector's root is
still the non-empty value supplied at construction. -/
theorem root_immutable (fs : FS) (R : FPath) (ops : List FPath) (b : Bool)
    (d : Disk) (hR : R ≠ []) :
    (ops.foldl (fun s q => s.addFile fs q) (FileCollector.create R)).Root = R
    ∧ (((ops.foldl (fun s q => s.addFile fs q)
          (FileCollector.create R)).copyFiles fs b d).1.Root = R)
    ∧ (ops.foldl (fun s q => s.addFile fs q) (FileCollector.create R)).Root ≠ [] := by
  have h := foldl_addFile_Root fs ops (FileCollector.create R)
  exact ⟨h, h, h ▸ hR⟩

/-- Witness for C9 at concrete inputs. -/
theorem root_immutable_witness :
    ([["a", "b"]].foldl (fun s q => s.addFile fsNoSym q)
      (FileCollector.create ["R"])).Root = ["R"] :=
  (root_immutable fsNoSym ["R"] [["a", "b"]] true [] (by decide)).1

/-- C1: symlink transparency — with `/r/bar` a symlink to `/r/foo`, adding
`/r/bar/ddd` records a mapping entry whose virtual path is `/r/bar/ddd` and
whose destination is `Root ++ /r/foo/ddd` (the symlink-resolved real
location), and after additionally adding `/r/foo/ddd` the copy entries
contain the real path `/r/foo/ddd` exactly once. -/
theorem symlink_transparency (R : FPath) :
    (["r", "bar", "ddd"], R ++ ["r", "foo", "ddd"])
        ∈ ((FileCollector.create R).addFile fsLink ["r", "bar", "ddd"]).VFSMappings
    ∧ ((((FileCollector.create R).addFile fsLink ["r", "bar", "ddd"]).addFile fsLink
          ["r", "foo", "ddd"]).CopyEntries.filter
        (fun e => e.1 == ["r", "foo", "ddd"])).length = 1 := by
  constructor
  · have h : ((FileCollector.create R).addFile fsLink ["r", "bar", "ddd"]).VFSMappings
        = [(["r", "bar", "ddd"], R ++ ["r", "foo", "ddd"])] := rfl
    rw [h]
    exact List.mem_singleton.mpr rfl
  · rfl

/-- C5: `..` elimination — adding `/r/foo/../eee` yields the copy entry
`(/r/eee, Root ++ /r/eee)` (the `..` segment lexically removed, no literal
`..` traversal in the destination) and a mapping entry sending the added
path to that same destination. -/
theorem dotdot_elimination (R : FPath) :
    ((FileCollector.create R).addFile fsNoSym ["r", "foo", "..", "eee"]).CopyEntries
      = [(["r", "eee"], R ++ ["r", "eee"])]
    ∧ (["r", "foo", "..", "eee"], R ++ ["r", "eee"])
        ∈ ((FileCollector.create R).addFile fsNoSym
            ["r", "foo", "..", "eee"]).VFSMappings := by
  constructor
  · rfl
  · have h : ((FileCollector.create R).addFile fsNoSym
        ["r", "foo", "..", "eee"]).VFSMappings
        = [(["r", "foo", "..", "eee"], R ++ ["r", "eee"])] := rfl
    rw [h]
    exact List.mem_singleton.mpr rfl

/-- One-step unfolding of the canonicalizer sweep on a cons cell. -/
theorem canonGo_cons (fs : FS)
    (rec : List (FPath × FPath) → FPath → FPath × List (FPath × FPath))
    (cache : List (FPath × FPath)) (resolved : FPath) (c : String)
    (rest : List String) :
    canonGo fs rec cache resolved (c :: rest)
      = match lookupCache cache (resolved ++ [c]) with
        | some r => canonGo fs rec cache r rest
        | none =>
          match fs.symlink (resolved ++ [c]) with
          | some tgt =>
            let res := rec cache (normalizePath tgt)
            canonGo fs rec ((resolved ++ [c], res.1) :: res.2) res.1 rest
          | none =>
            canonGo fs rec ((resolved ++ [c], resolved ++ [c]) :: cache)
              (resolved ++ [c]) rest := rfl

/-- A cache hit returns a value equal to its key when every cache entry
resolves a directory to itself. -/
theorem lookupCache_self (cache : List (FPath × FPath)) (p r : FPath)
    (hc : ∀ kv ∈ cache, kv.2 = kv.1) (h : lookupCache cache p = some r) :
    r = p := by
  unfold lookupCache at h
  cases hf : cache.find? (fun e => e.1 == p) with
  | none => rw [hf] at h; simp at h
  | some kv =>
      rw [hf] at h
      simp at h
      have h1 := List.find?_some hf
      have h2 := hc kv (List.mem_of_find?_eq_some hf)
      rw [← h, h2]
      exact eq_of_beq h1

/-- With no symbolic link on any non-empty extension of `resolved` along
`comps`, and a cache whose every entry resolves a directory to itself, the
canonicalizer sweep resolves `resolved ++ comps` to itself and the resulting
cache again resolves every directory to itself. -/
theorem canonGo_id (fs : FS)
    (rec : List (FPath × FPath) → FPath → FPath × List (FPath × FPath)) :
    ∀ (comps : List String) (resolved : FPath) (cache : List (FPath × FPath)),
      (∀ kv ∈ cache, kv.2 = kv.1) →
      (∀ pre suf, pre ++ suf = comps → pre ≠ [] →
        fs.symlink (resolved ++ pre) = none) →
      (canonGo fs rec cache resolved comps).1 = resolved ++ comps
      ∧ ∀ kv ∈ (canonGo fs rec cache resolved comps).2, kv.2 = kv.1
  | [], resolved, cache, hc, _ => by
      constructor
      · simp [canonGo]
      · simpa [canonGo] using hc
  | c :: rest, resolved, cache, hc, hs => by
      have hnone : fs.symlink (resolved ++ [c]) = none :=
        hs [c] rest rfl (by simp)
      have hs' : ∀ pre suf, pre ++ suf = rest → pre ≠ [] →
          fs.symlink ((resolved ++ [c]) ++ pre) = none := by
        intro pre suf hps hne
        have h := hs (c :: pre) suf (by simp [hps]) (by simp)
        rwa [List.append_cons] at h
      cases hl : lookupCache cache (resolved ++ [c]) with
      | some r =>
          have hr : r = resolved ++ [c] := lookupCache_self cache _ r hc hl
          subst hr
          have ih := canonGo_id fs rec rest (resolved ++ [c]) cache hc hs'
          simp only [canonGo_cons, hl]
          exact ⟨ih.1.trans (by simp), ih.2⟩
      | none =>
          have hc' : ∀ kv ∈ ((resolved ++ [c], resolved ++ [c]) :: cache),
              kv.2 = kv.1 := by
            intro kv hkv
            rcases List.mem_cons.mp hkv with h | h
            · rw [h]
            · exact hc kv h
          have ih := canonGo_id fs rec rest (resolved ++ [c])
            ((resolved ++ [c], resolved ++ [c]) :: cache) hc' hs'
          simp only [canonGo_cons, hl, hnone]
          exact ⟨ih.1.trans (by simp), ih.2⟩

/-- With no symbolic link anywhere along the (normalized) directory, and a
cache whose entries all resolve a directory to itself, canonicalization
returns the lexically normalized directory unchanged. -/
theorem canonicalizeDir_id (fs : FS) (cache : List (FPath × FPath)) (dir : FPath)
    (hc : ∀ kv ∈ cache, kv.2 = kv.1)
    (hs : ∀ pre suf, pre ++ suf = normalizePath dir → pre ≠ [] →
      fs.symlink pre = none) :
    (canonicalizeDir fs cache dir).1 = normalizePath dir := by
  have h := canonGo_id fs (canonFix fs 63) (normalizePath dir) [] cache hc
    (fun pre suf hps hne => by simpa using hs pre suf hps hne)
  exact h.1

/-- Lexical normalization leaves a dot-free component list unchanged. -/
theorem normAux_no_dots :
    ∀ (p : List String) (acc : FPath), (∀ c ∈ p, c ≠ "." ∧ c ≠ "..") →
      normAux acc p = acc ++ p
  | [], acc, _ => by simp [normAux]
  | c :: rest, acc, h => by
      have hc := h c (List.mem_cons_self _ _)
      have ih := normAux_no_dots rest (acc ++ [c])
        (fun x hx => h x (List.mem_cons_of_mem _ hx))
      simp [normAux, hc.1, hc.2, ih]

/-- `normalizePath` leaves a dot-free path unchanged. -/
theorem normalizePath_no_dots (p : FPath) (h : ∀ c ∈ p, c ≠ "." ∧ c ≠ "..") :
    normalizePath p = p := by
  simpa [normalizePath] using normAux_no_dots p [] h

/-- Splitting off the final component and re-appending it is the identity. -/
theorem dropLast_append_drop {α : Type} (l : List α) :
    l.dropLast ++ l.drop (l.length - 1) = l := by
  rw [List.dropLast_eq_take]
  exact List.take_append_drop _ l

/-- C4: rerooting — for root `R` and an added file path `p` with no dot
components and no symlinked component along its directory, the recorded copy
entry is `(p, R ++ p)` (the real path mirrored verbatim under the root by
concatenation) and the mapping entry `(p, R ++ p)` exists. -/
theorem rerooting (fs : FS) (R p : FPath)
    (hdots : ∀ c ∈ p, c ≠ "." ∧ c ≠ "..")
    (hsym : ∀ pre suf, pre ++ suf = p.dropLast → pre ≠ [] →
      fs.symlink pre = none) :
    (p, R ++ p) ∈ ((FileCollector.create R).addFile fs p).CopyEntries
    ∧ (p, R ++ p) ∈ ((FileCollector.create R).addFile fs p).VFSMappings := by
  have hnorm : normalizePath p.dropLast = p.dropLast :=
    normalizePath_no_dots _ (fun c hc => hdots c (List.mem_of_mem_dropLast hc))
  have hcanon : (canonicalizeDir fs [] p.dropLast).1 = p.dropLast := by
    rw [canonicalizeDir_id fs [] p.dropLast (by simp)
      (fun pre suf hps hne => hsym pre suf (hps.trans hnorm) hne), hnorm]
  have h1 : ((FileCollector.create R).addFile fs p).CopyEntries
      = [((canonicalizeDir fs [] p.dropLast).1 ++ p.drop (p.length - 1),
          R ++ ((canonicalizeDir fs [] p.dropLast).1 ++ p.drop (p.length - 1)))] :=
    rfl
  have h2 : ((FileCollector.create R).addFile fs p).VFSMappings
      = [(p, R ++ ((canonicalizeDir fs [] p.dropLast).1 ++
          p.drop (p.length - 1)))] := rfl
  constructor
  · rw [h1, hcanon, dropLast_append_drop]
    exact List.mem_singleton.mpr rfl
  · rw [h2, hcanon, dropLast_append_drop]
    exact List.mem_singleton.mpr rfl

/-- Witness for C4 at concrete inputs: root `/R`, path `/a/b/c`, no symlinks. -/
theorem rerooting_witness :
    (["a", "b", "c"], ["R", "a", "b", "c"])
        ∈ ((FileCollector.create ["R"]).addFile fsNoSym ["a", "b", "c"]).CopyEntries
    ∧ (["a", "b", "c"], ["R", "a", "b", "c"])
        ∈ ((FileCollector.create ["R"]).addFile fsNoSym ["a", "b", "c"]).VFSMappings :=
  rerooting fsNoSym ["R"] ["a", "b", "c"] (by decide) (fun _ _ _ _ => rfl)

/-- C8: `addFile` is a total function that never surfaces a resolution
failure — any path is recorded as seen with a best-effort destination, and
when no prefix is a symbolic link (in particular when prefixes do not exist
on disk, in which case they are resolved to themselves unchanged) the
destination is the root followed by the lexically normalized directory and
the filename. -/
theorem addFile_total (fs : FS) (fc : FileCollector) (p R : FPath)
    (hnew : p ∉ fc.Seen) :
    p ∈ (fc.addFile fs p).Seen
    ∧ (∃ d, (p, d) ∈ (fc.addFile fs p).VFSMappings)
    ∧ ((∀ q, q ≠ [] → fs.symlink q = none) →
        (p, R ++ (normalizePath p.dropLast ++ p.drop (p.length - 1)))
          ∈ ((FileCollector.create R).addFile fs p).VFSMappings) := by
  refine ⟨mem_seen_addFile fs fc p, ?_, ?_⟩
  · have h2 : (fc.addFile fs p).VFSMappings
        = fc.VFSMappings ++ [(p, fc.Root ++
            ((canonicalizeDir fs fc.SymlinkMap p.dropLast).1 ++
              p.drop (p.length - 1)))] := by
      unfold FileCollector.addFile
      rw [if_neg hnew]
    exact ⟨_, by
      rw [h2]
      exact List.mem_append_right _ (List.mem_singleton.mpr rfl)⟩
  · intro hglob
    have hcanon : (canonicalizeDir fs [] p.dropLast).1 = normalizePath p.dropLast :=
      canonicalizeDir_id fs [] p.dropLast (by simp)
        (fun pre _ _ hne => hglob pre hne)
    have h2 : ((FileCollector.create R).addFile fs p).VFSMappings
        = [(p, R ++ ((canonicalizeDir fs [] p.dropLast).1 ++
            p.drop (p.length - 1)))] := rfl
    rw [h2, hcanon]
    exact List.mem_singleton.mpr rfl

/-- Witness for C8 at concrete inputs: an entirely nonexistent path `/x/y`
is still recorded, with the best-effort destination `/R/x/y`. -/
theorem addFile_total_witness :
    ["x", "y"] ∈ ((FileCollector.create ["R"]).addFile fsNoSym ["x", "y"]).Seen
    ∧ (["x", "y"], ["R", "x", "y"])
        ∈ ((FileCollector.create ["R"]).addFile fsNoSym ["x", "y"]).VFSMappings := by
  have h := addFile_total fsNoSym (FileCollector.create ["R"]) ["x", "y"] ["R"]
    (by decide)
  exact ⟨h.1, h.2.2 (fun _ _ => rfl)⟩

/-- The disk produced by copying a list of entries in order: each entry whose
source exists pushes its content at its destination (later writes shadow
earlier ones), a missing source writes nothing. -/
def writeAll (fs : FS) : List (FPath × FPath) → Disk → Disk
  | [], d => d
  | e :: rest, d =>
    match fs.contents e.1 with
    | some c => writeAll fs rest ((e.2, c) :: d)
    | none => writeAll fs rest d

/-- Left-biased choice on optional contents. -/
def oor : Option String → Option String → Option String
  | some a, _ => some a
  | none, b => b

/-- The content written last (by the latest successful copy) at destination
`q`, if any. -/
def lastWrite (fs : FS) : List (FPath × FPath) → FPath → Option String
  | [], _ => none
  | e :: es, q =>
    match fs.contents e.1 with
    | some c => oor (lastWrite fs es q) (if e.2 == q then some c else none)
    | none => lastWrite fs es q

theorem oor_assoc (a b c : Option String) : oor (oor a b) c = oor a (oor b c) := by
  cases a <;> rfl

theorem oor_self (a b : Option String) : oor a (oor a b) = oor a b := by
  cases a <;> rfl

/-- Reading a disk after one write. -/
theorem readDisk_cons (p : FPath) (c : String) (d : Disk) (q : FPath) :
    readDisk ((p, c) :: d) q
      = oor (if p == q then some c else none) (readDisk d q) := by
  cases h : p == q with
  | true => simp [readDisk, List.find?_cons, h, oor]
  | false => simp [readDisk, List.find?_cons, h, oor]

/-- Reading after copying a list of entries: the last successful write wins,
otherwise the original disk content shows through. -/
theorem readDisk_writeAll (fs : FS) :
    ∀ (es : List (FPath × FPath)) (d : Disk) (q : FPath),
      readDisk (writeAll fs es d) q = oor (lastWrite fs es q) (readDisk d q)
  | [], d, q => by simp [writeAll, lastWrite, oor]
  | e :: es, d, q => by
      cases h : fs.contents e.1 with
      | some c =>
          have ih := readDisk_writeAll fs es ((e.2, c) :: d) q
          simp only [writeAll, lastWrite, h]
          rw [ih, readDisk_cons, oor_assoc]
      | none =>
          have ih := readDisk_writeAll fs es d q
          simp only [writeAll, lastWrite, h]
          exact ih

/-- With `stopOnError = false` the copy loop always reports success. -/
theorem copyEntriesGo_false_success (fs : FS) (es : List (FPath × FPath)) :
    ∀ d : Disk, (copyEntriesGo fs false es d).success = true := by
  induction es with
  | nil => intro d; rfl
  | cons e rest ih =>
      intro d
      cases h : fs.contents e.1 with
      | some c => simpa [copyEntriesGo, h] using ih ((e.2, c) :: d)
      | none => simpa [copyEntriesGo, h] using ih d

/-- With `stopOnError = false` every registered entry is processed. -/
theorem copyEntriesGo_false_attempted (fs : FS) (es : List (FPath × FPath)) :
    ∀ d : Disk, (copyEntriesGo fs false es d).attempted = es := by
  induction es with
  | nil => intro d; rfl
  | cons e rest ih =>
      intro d
      cases h : fs.contents e.1 with
      | some c => simp [copyEntriesGo, h, ih ((e.2, c) :: d)]
      | none => simp [copyEntriesGo, h, ih d]

/-- With `stopOnError = false` exactly the entries whose source exists are
copied. -/
theorem copyEntriesGo_false_copied (fs : FS) (es : List (FPath × FPath)) :
    ∀ d : Disk, (copyEntriesGo fs false es d).copied
      = es.filter (fun e => (fs.contents e.1).isSome) := by
  induction es with
  | nil => intro d; rfl
  | cons e rest ih =>
      intro d
      cases h : fs.contents e.1 with
      | some c => simp [copyEntriesGo, h, List.filter_cons, ih ((e.2, c) :: d)]
      | none => simp [copyEntriesGo, h, List.filter_cons, ih d]

/-- A successful strict run means every registered source existed. -/
theorem copyEntriesGo_true_all (fs : FS) (es : List (FPath × FPath)) :
    ∀ d : Disk, (copyEntriesGo fs true es d).success = true →
      ∀ e ∈ es, (fs.contents e.1).isSome = true := by
  induction es with
  | nil => intro d _ e he; cases he
  | cons a rest ih =>
      intro d hsucc e he
      cases h : fs.contents a.1 with
      | some c =>
          rcases List.mem_cons.mp he with rfl | hmem
          · simp [h]
          · have : (copyEntriesGo fs true rest ((a.2, c) :: d)).success = true := by
              simpa [copyEntriesGo, h] using hsucc
            exact ih ((a.2, c) :: d) this e hmem
      | none =>
          simp [copyEntriesGo, h] at hsucc

/-- When every registered source exists, the copy loop (in either mode)
succeeds, processes and copies every entry, and leaves the disk as the
sequence of writes prescribes. -/
theorem copyEntriesGo_all_exists (fs : FS) (b : Bool) (es : List (FPath × FPath)) :
    ∀ d : Disk, (∀ e ∈ es, (fs.contents e.1).isSome = true) →
      copyEntriesGo fs b es d = ⟨true, es, es, writeAll fs es d⟩ := by
  induction es with
  | nil => intro d _; rfl
  | cons e rest ih =>
      intro d hall
      have he := hall e (List.mem_cons_self _ _)
      rcases Option.isSome_iff_exists.mp he with ⟨c, hc⟩
      have ihx := ih ((e.2, c) :: d) (fun x hx => hall x (List.mem_cons_of_mem _ hx))
      simp [copyEntriesGo, hc, ihx, writeAll]

/-- C2: partial-failure tolerance — with a registered entry whose source does
not exist among entries whose sources exist, `copyFiles(stopOnError=false)`
succeeds and copies exactly the entries whose sources exist, while
`copyFiles(stopOnError=true)` returns failure. -/
theorem copyFiles_partial_failure (fs : FS) (fc : FileCollector) (d d' : Disk)
    (bad : FPath × FPath) (hmem : bad ∈ fc.CopyEntries)
    (hbad : fs.contents bad.1 = none)
    (hvalid : ∀ e ∈ fc.CopyEntries, e.1 ≠ bad.1 →
      (fs.contents e.1).isSome = true) :
    (fc.copyFiles fs false d).2.success = true
    ∧ (fc.copyFiles fs false d).2.copied
        = fc.CopyEntries.filter (fun e => (fs.contents e.1).isSome)
    ∧ (fc.copyFiles fs false d).2.copied
        = fc.CopyEntries.filter (fun e => !(e.1 == bad.1))
    ∧ (fc.copyFiles fs true d').2.success = false := by
  have hcong : ∀ e ∈ fc.CopyEntries,
      ((fs.contents e.1).isSome) = (!(e.1 == bad.1)) := by
    intro e he
    by_cases hx : e.1 = bad.1
    · rw [hx, hbad]
      simp
    · simp [hvalid e he hx, hx]
  refine ⟨copyEntriesGo_false_success fs fc.CopyEntries d,
    copyEntriesGo_false_copied fs fc.CopyEntries d,
    (copyEntriesGo_false_copied fs fc.CopyEntries d).trans
      (List.filter_congr hcong), ?_⟩
  show (copyEntriesGo fs true fc.CopyEntries d').success = false
  cases hx : (copyEntriesGo fs true fc.CopyEntries d').success with
  | false => rfl
  | true =>
      have hall := copyEntriesGo_true_all fs fc.CopyEntries d' hx bad hmem
      rw [hbad] at hall
      simp at hall

/-- The filesystem for the C2 witness: `/s/aaa` and `/s/bbb` exist,
`/s/bogus` does not. -/
def fsC2 : FS :=
  ⟨fun _ => none, fun p =>
    if p = ["s", "aaa"] then some "A"
    else if p = ["s", "bbb"] then some "B" else none⟩

/-- The collector for the C2 witness: two valid entries around a bogus one. -/
def fcC2 : FileCollector :=
  ⟨["R"], [], [],
    [(["s", "aaa"], ["R", "s", "aaa"]), (["s", "bogus"], ["R", "s", "bogus"]),
      (["s", "bbb"], ["R", "s", "bbb"])], []⟩

/-- Witness for C2 at concrete inputs: the lax run succeeds and copies the
two valid files, the strict run fails. -/
theorem copyFiles_partial_failure_witness :
    (fcC2.copyFiles fsC2 false []).2.success = true
    ∧ (fcC2.copyFiles fsC2 false []).2.copied
        = [(["s", "aaa"], ["R", "s", "aaa"]), (["s", "bbb"], ["R", "s", "bbb"])]
    ∧ (fcC2.copyFiles fsC2 true []).2.success = false := by
  have h := copyFiles_partial_failure fsC2 fcC2 [] []
    (["s", "bogus"], ["R", "s", "bogus"]) (by decide) rfl (by decide)
  exact ⟨h.1, h.2.1.trans (by decide), h.2.2.2⟩

/-- C7: re-invoking `copyFiles` after a successful strict run succeeds again
and is a no-op in effect — existing destinations are overwritten rather than
raising an already-exists failure, and every path on the disk reads back
unchanged. -/
theorem copyFiles_rerun (fs : FS) (fc : FileCollector) (b : Bool) (d : Disk)
    (h : (fc.copyFiles fs true d).2.success = true) :
    ((fc.copyFiles fs b (fc.copyFiles fs true d).2.disk).2.success = true)
    ∧ ∀ q, readDisk ((fc.copyFiles fs b
          (fc.copyFiles fs true d).2.disk).2.disk) q
        = readDisk ((fc.copyFiles fs true d).2.disk) q := by
  have hall := copyEntriesGo_true_all fs fc.CopyEntries d h
  have h1 := copyEntriesGo_all_exists fs true fc.CopyEntries d hall
  have h2 := copyEntriesGo_all_exists fs b fc.CopyEntries
    (writeAll fs fc.CopyEntries d) hall
  have hd : (fc.copyFiles fs true d).2.disk = writeAll fs fc.CopyEntries d := by
    show (copyEntriesGo fs true fc.CopyEntries d).disk = _
    rw [h1]
  constructor
  · show (copyEntriesGo fs b fc.CopyEntries
        ((fc.copyFiles fs true d).2.disk)).success = true
    rw [hd, h2]
  · intro q
    show readDisk (copyEntriesGo fs b fc.CopyEntries
        ((fc.copyFiles fs true d).2.disk)).disk q = _
    rw [hd, h2]
    show readDisk (writeAll fs fc.CopyEntries (writeAll fs fc.CopyEntries d)) q
        = readDisk (writeAll fs fc.CopyEntries d) q
    simp only [readDisk_writeAll]
    exact oor_self _ _

/-- The filesystem for the C7 and C10 witnesses: only `/s/aaa` exists. -/
def fsC7 : FS := ⟨fun _ => none, fun p => if p = ["s", "aaa"] then some "A" else none⟩

/-- The collector for the C7 witness: the single valid entry for `/s/aaa`. -/
def fcC7 : FileCollector :=
  ⟨["R"], [], [], [(["s", "aaa"], ["R", "s", "aaa"])], []⟩

/-- Witness for C7 at concrete inputs. -/
theorem copyFiles_rerun_witness :
    ((fcC7.copyFiles fsC7 true (fcC7.copyFiles fsC7 true []).2.disk).2.success
        = true)
    ∧ readDisk ((fcC7.copyFiles fsC7 true
          (fcC7.copyFiles fsC7 true []).2.disk).2.disk) ["R", "s", "aaa"]
        = readDisk ((fcC7.copyFiles fsC7 true []).2.disk) ["R", "s", "aaa"] := by
  have h := copyFiles_rerun fsC7 fcC7 true [] (by decide)
  exact ⟨h.1, h.2 ["R", "s", "aaa"]⟩

/-- C10: a failed strict `copyFiles` leaves the collector's in-memory state
unchanged (the copy phase reads, and never writes, the tables), and a
subsequent `copyFiles(stopOnError=false)` on the same collector still
processes every registered entry — the failing one included — and returns
success. -/
theorem copyFiles_failure_preserves_state (fs : FS) (fc : FileCollector)
    (d d' : Disk) (_h : (fc.copyFiles fs true d).2.success = false) :
    (fc.copyFiles fs true d).1 = fc
    ∧ (fc.copyFiles fs false d').1 = fc
    ∧ (fc.copyFiles fs false d').2.attempted = fc.CopyEntries
    ∧ (fc.copyFiles fs false d').2.success = true :=
  ⟨rfl, rfl, copyEntriesGo_false_attempted fs fc.CopyEntries d',
    copyEntriesGo_false_success fs fc.CopyEntries d'⟩

/-- The collector for the C10 witness: a single bogus entry, so the strict
run fails. -/
def fcC10 : FileCollector :=
  ⟨["R"], [], [], [(["s", "bogus"], ["R", "s", "bogus"])], []⟩

/-- Witness for C10 at concrete inputs. -/
theorem copyFiles_failure_preserves_state_witness :
    (fcC10.copyFiles fsC7 true []).1 = fcC10
    ∧ (fcC10.copyFiles fsC7 false []).2.attempted
        = [(["s", "bogus"], ["R", "s", "bogus"])]
    ∧ (fcC10.copyFiles fsC7 false []).2.success = true := by
  have h := copyFiles_failure_preserves_state fsC7 fcC10 [] [] (by decide)
  exact ⟨h.1, h.2.2.1, h.2.2.2⟩
